import Mathlib

set_option autoImplicit false

namespace SyncViewer

/-!
Shallow embedding of the SyncViewer core: the chunked file cache
(services/fileCache.ts, class FileCacheService) and the reading-progress
synchronizer (services/sync.ts, class SyncService), together with the parts
of services/googleDrive.ts they call (downloadFileChunk, loadReadingProgress,
saveReadingProgress).

Modelling conventions:
* Text is a list of characters; byte offsets are Nat indices into that list.
* The IndexedDB object store of chunks is an association list keyed by
  (bookId, chunkIndex).  The source keys entries by the string
  bookId ++ "_" ++ chunkIndex; since chunk indices are decimal numerals
  that encoding is injective in the pair, so the pair is used directly.
* The uninitialized service (this.db === null) is db = none.
* Remote collaborators are a parameter: RemoteEnv gives the true document
  text per bookId and a success flag per range request; ProgressRemote gives
  the remote progress record per bookId and success flags for reads/writes.
  A successful byte-range fetch returns exactly the requested inclusive
  byte range of the true document.
* Date.now() is an explicit now parameter; JS floor/ceil on nonnegative
  quantities are Nat division and ceiling division.  The one window bound
  that can be negative in JS (endChunkIndex when fileSize = 0) is an Int.
-/

/-- CacheConfig from types/index.ts: chunkSize, preloadChunks, maxCacheSize. -/
structure CacheConfig where
  chunkSize : Nat
  preloadChunks : Nat
  maxCacheSize : Nat
deriving DecidableEq

/-- FileCacheChunk from types/index.ts.  endOffset is Int because the source
computes fileSize - 1, which is -1 for an empty file. -/
structure FileCacheChunk where
  bookId : String
  startOffset : Nat
  endOffset : Int
  content : List Char
  cachedAt : Nat
deriving DecidableEq

/-- Key of the chunks object store: the source string key
bookId ++ "_" ++ chunkIndex, represented as the pair it encodes. -/
abbrev ChunkKey := String × Nat

/-- The IndexedDB chunks object store, as an association list. -/
abbrev ChunkStore := List (ChunkKey × FileCacheChunk)

/-- db.get('chunks', key). -/
def storeGet : ChunkStore → ChunkKey → Option FileCacheChunk
  | [], _ => none
  | e :: rest, k => if e.1 = k then some e.2 else storeGet rest k

/-- db.delete('chunks', key). -/
def storeDelete : ChunkStore → ChunkKey → ChunkStore
  | [], _ => []
  | e :: rest, k => if e.1 = k then storeDelete rest k else e :: storeDelete rest k

/-- db.put('chunks', chunk-with-key): upsert at the key. -/
def storePut (s : ChunkStore) (k : ChunkKey) (ch : FileCacheChunk) : ChunkStore :=
  (k, ch) :: storeDelete s k

/-- db.getAll('chunks'): the stored chunk values. -/
def storeChunks (s : ChunkStore) : List FileCacheChunk := s.map (fun e => e.2)

/-- Sum of content lengths of a list of chunks. -/
def bytesOf (l : List FileCacheChunk) : Nat := (l.map (fun ch => ch.content.length)).sum

/-- allChunks.reduce((sum, chunk) => sum + chunk.content.length, 0). -/
def totalBytes (s : ChunkStore) : Nat := bytesOf (storeChunks s)

/-- The store never holds two entries with one key (IndexedDB key uniqueness). -/
def storeNodup (s : ChunkStore) : Prop := (s.map (fun e => e.1)).Nodup

/-- Cached bytes belonging to one book. -/
def bookBytes (s : ChunkStore) (b : String) : Nat :=
  bytesOf ((storeChunks s).filter (fun ch => decide (ch.bookId = b)))

/-- Cached bytes belonging to books other than cur. -/
def inactiveBytes (s : ChunkStore) (cur : String) : Nat :=
  bytesOf ((storeChunks s).filter (fun ch => decide (ch.bookId ≠ cur)))

/-- The Remote Object Store side of the cache: the true text of each document
and whether a given chunk-range request succeeds. -/
structure RemoteEnv where
  docs : String → List Char
  fetchOk : String → Nat → Bool

/-- googleDriveService.downloadFileChunk on success: the inclusive byte range
[startOffset, endOffset] of the true document text. -/
def fetchRange (env : RemoteEnv) (bookId : String) (startOffset : Nat) (endOffset : Int) :
    List Char :=
  ((env.docs bookId).drop startOffset).take (endOffset - (startOffset : Int) + 1).toNat

/-- Failures of cache operations: the not-initialized throw, a failed remote
chunk download, and the TypeError from reading .content of an out-of-window
chunk index in loadChunksAround. -/
inductive CacheError
  | notInitialized
  | remoteFetch
  | missingChunk
deriving DecidableEq

/-- The store key the source recomputes from a chunk value during cleanup:
bookId ++ "_" ++ floor(startOffset / chunkSize). -/
def keyOf (cfg : CacheConfig) (ch : FileCacheChunk) : ChunkKey :=
  (ch.bookId, ch.startOffset / cfg.chunkSize)

/-- FileCacheService.getOrFetchChunk: return the cached chunk unchanged on a
hit; on a miss download the exact byte range, stamp cachedAt with now,
persist and return it. -/
def getOrFetchChunk (env : RemoteEnv) (cfg : CacheConfig) (now : Nat) (store : ChunkStore)
    (bookId : String) (fileSize : Nat) (chunkIndex : Nat) :
    Except CacheError (FileCacheChunk × ChunkStore) :=
  match storeGet store (bookId, chunkIndex) with
  | some cachedChunk => .ok (cachedChunk, store)
  | none =>
    if env.fetchOk bookId chunkIndex then
      let startOffset := chunkIndex * cfg.chunkSize
      let endOffset : Int := min ((startOffset : Int) + cfg.chunkSize - 1) ((fileSize : Int) - 1)
      let chunk : FileCacheChunk :=
        { bookId := bookId, startOffset := startOffset, endOffset := endOffset,
          content := fetchRange env bookId startOffset endOffset, cachedAt := now }
      .ok (chunk, storePut store (bookId, chunkIndex) chunk)
    else .error .remoteFetch

/-- Resolve a list of chunk indices through getOrFetchChunk in order,
threading the store; on the first failure return the store reached so far
(chunks already fetched stay persisted). -/
def fetchList (env : RemoteEnv) (cfg : CacheConfig) (now : Nat) (bookId : String)
    (fileSize : Nat) : List Nat → ChunkStore → Except CacheError (List FileCacheChunk) × ChunkStore
  | [], store => (.ok [], store)
  | i :: rest, store =>
    match getOrFetchChunk env cfg now store bookId fileSize i with
    | .error e => (.error e, store)
    | .ok (ch, store1) =>
      match fetchList env cfg now bookId fileSize rest store1 with
      | (.ok chs, store2) => (.ok (ch :: chs), store2)
      | (.error e, store2) => (.error e, store2)

/-- Math.ceil(fileSize / chunkSize). -/
def numChunks (cfg : CacheConfig) (fileSize : Nat) : Nat :=
  (fileSize + cfg.chunkSize - 1) / cfg.chunkSize

/-- The chunk indices loadChunksAround iterates over:
from max(0, chunkIndex - preloadChunks)
to min(ceil(fileSize / chunkSize) - 1, chunkIndex + preloadChunks).
Nat subtraction is exactly the max with 0; the upper bound is Int since it
is -1 when fileSize = 0, in which case the loop body never runs. -/
def chunkWindow (cfg : CacheConfig) (fileSize position : Nat) : List Nat :=
  let chunkIndex := position / cfg.chunkSize
  let startChunkIndex := chunkIndex - cfg.preloadChunks
  let endChunkIndex : Int :=
    min ((numChunks cfg fileSize : Int) - 1) ((chunkIndex + cfg.preloadChunks : Nat) : Int)
  if (startChunkIndex : Int) > endChunkIndex then []
  else List.range' startChunkIndex ((endChunkIndex - (startChunkIndex : Int)).toNat + 1)

/-- Insert a chunk into a list sorted by ascending cachedAt (kept executable
so that concrete cleanup runs evaluate). -/
def insertByCachedAt (ch : FileCacheChunk) : List FileCacheChunk → List FileCacheChunk
  | [] => [ch]
  | c0 :: rest =>
    if ch.cachedAt ≤ c0.cachedAt then ch :: c0 :: rest else c0 :: insertByCachedAt ch rest

/-- The sort (a, b) => a.cachedAt - b.cachedAt of cleanupOldChunks: a stable
sort by ascending cachedAt. -/
def sortByCachedAt : List FileCacheChunk → List FileCacheChunk
  | [] => []
  | c0 :: rest => insertByCachedAt c0 (sortByCachedAt rest)

/-- The deletion loop of cleanupOldChunks: walk the sorted candidate list,
stopping once freedSize ≥ targetFreeSize, deleting by the recomputed key and
crediting the chunk's content length as freed. -/
def evictLoop (cfg : CacheConfig) : ChunkStore → List FileCacheChunk → Nat → Nat → ChunkStore
  | store, [], _, _ => store
  | store, ch :: rest, freedSize, targetFreeSize =>
    if targetFreeSize ≤ freedSize then store
    else evictLoop cfg (storeDelete store (keyOf cfg ch)) rest
      (freedSize + ch.content.length) targetFreeSize

/-- FileCacheService.cleanupOldChunks: when total cached bytes exceed
maxCacheSize, sort the chunks of other books by ascending cachedAt and delete
oldest-first until (totalSize - maxCacheSize) bytes are credited as freed. -/
def cleanupOldChunks (cfg : CacheConfig) (store : ChunkStore) (currentBookId : String) :
    ChunkStore :=
  let totalSize := totalBytes store
  if cfg.maxCacheSize < totalSize then
    let chunksToClean :=
      sortByCachedAt ((storeChunks store).filter (fun ch => decide (ch.bookId ≠ currentBookId)))
    evictLoop cfg store chunksToClean 0 (totalSize - cfg.maxCacheSize)
  else store

/-- FileCacheService.loadChunksAround: resolve the preload window, pick the
chunk containing position out of the resolved list, run cleanup, and return
that chunk's content.  Reading an index outside the resolved list is the
source's undefined.content TypeError, after cleanup has already run. -/
def loadChunksAround (env : RemoteEnv) (cfg : CacheConfig) (now : Nat) (db : Option ChunkStore)
    (bookId : String) (fileSize position : Nat) :
    Except CacheError (List Char) × Option ChunkStore :=
  match db with
  | none => (.error .notInitialized, none)
  | some store =>
    let chunkIndex := position / cfg.chunkSize
    let startChunkIndex := chunkIndex - cfg.preloadChunks
    match fetchList env cfg now bookId fileSize (chunkWindow cfg fileSize position) store with
    | (.error e, store1) => (.error e, some store1)
    | (.ok chunks, store1) =>
      let currentChunk := chunks[chunkIndex - startChunkIndex]?
      let store2 := cleanupOldChunks cfg store1 bookId
      match currentChunk with
      | some ch => (.ok ch.content, some store2)
      | none => (.error .missingChunk, some store2)

/-- FileCacheService.getContentAtPosition: resolve the covering chunks in
index order, concatenate their content and slice out
[position, position + length) relative to the first chunk's start.
No cleanup runs here. -/
def getContentAtPosition (env : RemoteEnv) (cfg : CacheConfig) (now : Nat)
    (db : Option ChunkStore) (bookId : String) (fileSize position length : Nat) :
    Except CacheError (List Char × Nat) × Option ChunkStore :=
  match db with
  | none => (.error .notInitialized, none)
  | some store =>
    let startChunkIndex := position / cfg.chunkSize
    let endPosition := min (position + length) fileSize
    let endChunkIndex := endPosition / cfg.chunkSize
    let idxs := if endChunkIndex < startChunkIndex then []
      else List.range' startChunkIndex (endChunkIndex - startChunkIndex + 1)
    match fetchList env cfg now bookId fileSize idxs store with
    | (.error e, store1) => (.error e, some store1)
    | (.ok chunks, store1) =>
      let combinedContent := (chunks.map (fun ch => ch.content)).flatten
      let offsetInFirstChunk := position - startChunkIndex * cfg.chunkSize
      let content := (combinedContent.drop offsetInFirstChunk).take length
      (.ok (content, position), some store1)

/-- FileCacheService.getContentWithContext: expand by viewSize on each side,
clamp to the document, delegate to getContentAtPosition and report the
clamped start offset. -/
def getContentWithContext (env : RemoteEnv) (cfg : CacheConfig) (now : Nat)
    (db : Option ChunkStore) (bookId : String) (fileSize position viewSize : Nat) :
    Except CacheError (List Char × Nat × Nat) × Option ChunkStore :=
  match db with
  | none => (.error .notInitialized, none)
  | some store =>
    let contextSize := viewSize
    let startPos := position - contextSize
    let endPos := min fileSize (position + viewSize + contextSize)
    let totalLength := endPos - startPos
    match getContentAtPosition env cfg now (some store) bookId fileSize startPos totalLength with
    | (.error e, db1) => (.error e, db1)
    | (.ok (content, _), db1) => (.ok (content, startPos, fileSize), db1)

/-- FileCacheService.getCacheStats: zeros and an empty book set when the db
is not open, otherwise chunk count, total bytes and the distinct book ids. -/
def getCacheStats (db : Option ChunkStore) : Nat × Nat × List String :=
  match db with
  | none => (0, 0, [])
  | some store =>
    let allChunks := storeChunks store
    (allChunks.length, totalBytes store, (allChunks.map (fun ch => ch.bookId)).dedup)

/-- ReadingProgress from types/index.ts.  percentage is informational only
(never compared by the synchronizer) and is carried as a Nat. -/
structure ReadingProgress where
  bookId : String
  position : Nat
  percentage : Nat
  lastUpdated : Nat
  lineNumber : Option Nat
deriving DecidableEq

/-- The JSON object persisted under the syncviewer_progress localStorage key,
and also the shape of the pendingUpdates Map. -/
abbrev ProgressMap := List (String × ReadingProgress)

def progressGet : ProgressMap → String → Option ReadingProgress
  | [], _ => none
  | e :: rest, b => if e.1 = b then some e.2 else progressGet rest b

def progressErase : ProgressMap → String → ProgressMap
  | [], _ => []
  | e :: rest, b => if e.1 = b then progressErase rest b else e :: progressErase rest b

def progressSet (m : ProgressMap) (b : String) (p : ReadingProgress) : ProgressMap :=
  (b, p) :: progressErase m b

/-- SyncService instance state: the localStorage ledger, the pendingUpdates
Map and the isSyncing re-entrancy flag. -/
structure SyncState where
  localProgress : ProgressMap
  pendingUpdates : ProgressMap
  isSyncing : Bool
deriving DecidableEq

/-- The Remote Object Store side of the synchronizer: the progress record per
bookId, whether reading it succeeds at the transport level, and whether
writing it succeeds. -/
structure ProgressRemote where
  record : String → Option ReadingProgress
  readOk : String → Bool
  writeOk : String → Bool

/-- googleDriveService.loadReadingProgress: a missing record gives null, and
every failure (non-ok response or thrown transport error) is caught and also
gives null - read errors never escape. -/
def loadReadingProgress (r : ProgressRemote) (bookId : String) : Option ReadingProgress :=
  if r.readOk bookId then r.record bookId else none

/-- The synchronizer errors that can reach a caller: only remote write
failures, surfaced from saveReadingProgress. -/
inductive SyncError
  | remoteWrite
deriving DecidableEq

/-- googleDriveService.saveReadingProgress: rethrows transport failures. -/
def saveReadingProgress (r : ProgressRemote) (p : ReadingProgress) : Except SyncError Unit :=
  if r.writeOk p.bookId then .ok () else .error .remoteWrite

/-- SyncService.updateReadingProgress: write the entry into localStorage under
progress.bookId and set the pendingUpdates entry for the same key. -/
def updateReadingProgress (p : ReadingProgress) (s : SyncState) : SyncState :=
  { s with localProgress := progressSet s.localProgress p.bookId p,
           pendingUpdates := progressSet s.pendingUpdates p.bookId p }

/-- SyncService.getReadingProgress: local-only lookup. -/
def getReadingProgress (s : SyncState) (bookId : String) : Option ReadingProgress :=
  progressGet s.localProgress bookId

/-- SyncService.syncBookProgress: the 4-way last-write-wins merge.  Adoption
of a remote record goes through updateReadingProgress; a successful push
deletes the pending entry; write failures are rethrown by the final catch. -/
def syncBookProgress (r : ProgressRemote) (s : SyncState) (bookId : String) :
    Except SyncError SyncState :=
  let localProgress := getReadingProgress s bookId
  let remoteProgress := loadReadingProgress r bookId
  match localProgress, remoteProgress with
  | none, none => .ok s
  | none, some rp => .ok (updateReadingProgress rp s)
  | some lp, none =>
    match saveReadingProgress r lp with
    | .ok _ => .ok { s with pendingUpdates := progressErase s.pendingUpdates bookId }
    | .error e => .error e
  | some lp, some rp =>
    if rp.lastUpdated < lp.lastUpdated then
      match saveReadingProgress r lp with
      | .ok _ => .ok { s with pendingUpdates := progressErase s.pendingUpdates bookId }
      | .error e => .error e
    else if lp.lastUpdated < rp.lastUpdated then
      .ok (updateReadingProgress rp s)
    else .ok s

/-- SyncService.syncAll.  Returns the new state together with the list of
bookIds for which a remote write was attempted (one save per pending entry).
Entries whose write succeeds are deleted from the queue; failures are kept
and the error is swallowed; isSyncing is reset by the finally block.  When a
flush is already running or the queue is empty, nothing happens. -/
def syncAll (r : ProgressRemote) (s : SyncState) : SyncState × List String :=
  if s.isSyncing then (s, [])
  else if s.pendingUpdates.length = 0 then (s, [])
  else
    let attempts := s.pendingUpdates.map (fun e => e.1)
    let pending1 := s.pendingUpdates.filter (fun e => !r.writeOk e.1)
    ({ s with pendingUpdates := pending1, isSyncing := false }, attempts)

/-- SyncService.fetchLatestProgress: always fetch the remote record; when one
arrives, adopt it locally if the local entry is absent or older, and return
the remote record; otherwise return null (the catch also returns null, but
nothing in the body can throw since read errors are absorbed). -/
def fetchLatestProgress (r : ProgressRemote) (s : SyncState) (bookId : String) :
    Option ReadingProgress × SyncState :=
  match loadReadingProgress r bookId with
  | some rp =>
    let s1 :=
      match getReadingProgress s bookId with
      | none => updateReadingProgress rp s
      | some lp => if lp.lastUpdated < rp.lastUpdated then updateReadingProgress rp s else s
    (some rp, s1)
  | none => (none, s)

/-!  Basic facts about the association-list store.  -/

theorem storeGet_delete (s : ChunkStore) (k k' : ChunkKey) :
    storeGet (storeDelete s k) k' = if k' = k then none else storeGet s k' := by
  induction s with
  | nil => simp only [storeDelete, storeGet]; split <;> rfl
  | cons e rest ih =>
    by_cases h1 : e.1 = k <;> by_cases h2 : k' = k <;> by_cases h3 : e.1 = k' <;>
      simp_all [storeDelete, storeGet]

theorem storeGet_put_self (s : ChunkStore) (k : ChunkKey) (ch : FileCacheChunk) :
    storeGet (storePut s k ch) k = some ch := by
  simp [storePut, storeGet]

theorem storeGet_put_other (s : ChunkStore) (k : ChunkKey) (ch : FileCacheChunk)
    (k' : ChunkKey) (h : k' ≠ k) :
    storeGet (storePut s k ch) k' = storeGet s k' := by
  rw [storePut, storeGet, if_neg (fun hh => h hh.symm), storeGet_delete, if_neg h]

theorem storeGet_mem (s : ChunkStore) (k : ChunkKey) (ch : FileCacheChunk)
    (h : storeGet s k = some ch) : (k, ch) ∈ s := by
  induction s with
  | nil => simp [storeGet] at h
  | cons e rest ih =>
    by_cases h1 : e.1 = k
    · rw [storeGet, if_pos h1] at h
      cases h
      exact h1 ▸ List.mem_cons_self e rest
    · rw [storeGet, if_neg h1] at h
      exact List.mem_cons_of_mem _ (ih h)

theorem mem_storeDelete (s : ChunkStore) (k : ChunkKey) (e : ChunkKey × FileCacheChunk)
    (h : e ∈ storeDelete s k) : e ∈ s := by
  induction s with
  | nil => simp [storeDelete] at h
  | cons e0 rest ih =>
    rw [storeDelete] at h
    by_cases h1 : e0.1 = k
    · rw [if_pos h1] at h
      exact List.mem_cons_of_mem _ (ih h)
    · rw [if_neg h1] at h
      rcases List.mem_cons.mp h with h2 | h2
      · exact h2 ▸ List.mem_cons_self e0 rest
      · exact List.mem_cons_of_mem _ (ih h2)

theorem storeGet_eq_none_iff (s : ChunkStore) (k : ChunkKey) :
    storeGet s k = none ↔ k ∉ s.map (fun e => e.1) := by
  induction s with
  | nil => simp [storeGet]
  | cons e rest ih =>
    by_cases h1 : e.1 = k <;> simp_all [storeGet]
    exact fun _ hk => h1 hk.symm

theorem storeNodup_delete (s : ChunkStore) (k : ChunkKey) (h : storeNodup s) :
    storeNodup (storeDelete s k) := by
  induction s with
  | nil => simp [storeDelete, storeNodup]
  | cons e0 rest ih =>
    simp only [storeNodup, List.map_cons, List.nodup_cons] at h
    rw [storeDelete]
    by_cases h1 : e0.1 = k
    · rw [if_pos h1]
      exact ih h.2
    · rw [if_neg h1]
      simp only [storeNodup, List.map_cons, List.nodup_cons]
      refine ⟨fun hm => ?_, ih h.2⟩
      have hnone : storeGet (storeDelete rest k) e0.1 = none := by
        rw [storeGet_delete, if_neg h1, storeGet_eq_none_iff]
        exact h.1
      rw [storeGet_eq_none_iff] at hnone
      exact hnone hm

theorem storeNodup_put (s : ChunkStore) (k : ChunkKey) (ch : FileCacheChunk)
    (h : storeNodup s) : storeNodup (storePut s k ch) := by
  simp only [storePut, storeNodup, List.map_cons, List.nodup_cons]
  refine ⟨fun hm => ?_, storeNodup_delete s k h⟩
  have hnone : storeGet (storeDelete s k) k = none := by
    rw [storeGet_delete, if_pos rfl]
  rw [storeGet_eq_none_iff] at hnone
  exact hnone hm

/-!  Well-formedness of the store relative to the live configuration and the
remote environment.  keysWF says each entry's value carries exactly the book
and start offset its key encodes (true of every chunk ever written while the
configuration's chunkSize is in effect); contentWF says each cached chunk
holds the true text of its byte range.  -/

def storeKeysWF (cfg : CacheConfig) (s : ChunkStore) : Prop :=
  ∀ e ∈ s, e.2.bookId = e.1.1 ∧ e.2.startOffset = e.1.2 * cfg.chunkSize

def storeContentWF (env : RemoteEnv) (cfg : CacheConfig) (s : ChunkStore) : Prop :=
  ∀ e ∈ s, e.2.content = ((env.docs e.2.bookId).drop e.2.startOffset).take cfg.chunkSize

instance (s : ChunkStore) : Decidable (storeNodup s) := by
  unfold storeNodup; infer_instance

instance (cfg : CacheConfig) (s : ChunkStore) : Decidable (storeKeysWF cfg s) := by
  unfold storeKeysWF; infer_instance

instance (env : RemoteEnv) (cfg : CacheConfig) (s : ChunkStore) :
    Decidable (storeContentWF env cfg s) := by
  unfold storeContentWF; infer_instance

theorem storeKeysWF_delete (cfg : CacheConfig) (s : ChunkStore) (k : ChunkKey)
    (h : storeKeysWF cfg s) : storeKeysWF cfg (storeDelete s k) :=
  fun e he => h e (mem_storeDelete s k e he)

theorem storeContentWF_delete (env : RemoteEnv) (cfg : CacheConfig) (s : ChunkStore)
    (k : ChunkKey) (h : storeContentWF env cfg s) : storeContentWF env cfg (storeDelete s k) :=
  fun e he => h e (mem_storeDelete s k e he)

theorem storeKeysWF_put (cfg : CacheConfig) (s : ChunkStore) (k : ChunkKey)
    (ch : FileCacheChunk) (h : storeKeysWF cfg s)
    (hch : ch.bookId = k.1 ∧ ch.startOffset = k.2 * cfg.chunkSize) :
    storeKeysWF cfg (storePut s k ch) := by
  intro e he
  rcases List.mem_cons.mp he with he | he
  · simp [he, hch]
  · exact h e (mem_storeDelete s k e he)

theorem storeContentWF_put (env : RemoteEnv) (cfg : CacheConfig) (s : ChunkStore)
    (k : ChunkKey) (ch : FileCacheChunk) (h : storeContentWF env cfg s)
    (hch : ch.content = ((env.docs ch.bookId).drop ch.startOffset).take cfg.chunkSize) :
    storeContentWF env cfg (storePut s k ch) := by
  intro e he
  rcases List.mem_cons.mp he with he | he
  · simp [he, hch]
  · exact h e (mem_storeDelete s k e he)

/-!  Behaviour of the single-chunk fetch-or-cache protocol.  -/

/-- The byte range requested on a miss is exactly the chunk-sized slice of
the true document, whenever the fileSize passed in is the true length. -/
theorem fetchRange_take (env : RemoteEnv) (b : String) (s0 c N : Nat)
    (hN : N = (env.docs b).length) :
    fetchRange env b s0 (min ((s0 : Int) + (c : Int) - 1) ((N : Int) - 1)) =
      ((env.docs b).drop s0).take c := by
  rw [fetchRange, List.take_eq_take, List.length_drop, ← hN]
  omega

theorem getOrFetchChunk_ok_store (env : RemoteEnv) (cfg : CacheConfig) (now : Nat)
    (store : ChunkStore) (b : String) (N i : Nat) (ch : FileCacheChunk) (store' : ChunkStore)
    (h : getOrFetchChunk env cfg now store b N i = .ok (ch, store')) :
    storeGet store' (b, i) = some ch ∧
    (∀ k ch0, storeGet store k = some ch0 → storeGet store' k = some ch0) ∧
    (storeNodup store → storeNodup store') ∧
    (storeKeysWF cfg store →
      (ch.bookId = b ∧ ch.startOffset = i * cfg.chunkSize) ∧ storeKeysWF cfg store') := by
  rw [getOrFetchChunk] at h
  cases hget : storeGet store (b, i) with
  | some cached =>
    rw [hget] at h
    cases h
    refine ⟨hget, fun k ch0 hk => hk, fun hn => hn, fun hWF => ?_⟩
    have := hWF ((b, i), ch) (storeGet_mem store (b, i) ch hget)
    exact ⟨this, hWF⟩
  | none =>
    rw [hget] at h
    by_cases hf : env.fetchOk b i = true
    · rw [if_pos hf] at h
      cases h
      refine ⟨storeGet_put_self _ _ _, fun k ch0 hk => ?_, storeNodup_put _ _ _, fun hWF => ?_⟩
      · rcases eq_or_ne k (b, i) with hk2 | hk2
        · rw [hk2, hget] at hk; cases hk
        · rw [storeGet_put_other _ _ _ _ hk2]; exact hk
      · exact ⟨⟨rfl, rfl⟩, storeKeysWF_put cfg store (b, i) _ hWF ⟨rfl, rfl⟩⟩
    · rw [if_neg hf] at h
      cases h

theorem getOrFetchChunk_ok_content (env : RemoteEnv) (cfg : CacheConfig) (now : Nat)
    (store : ChunkStore) (b : String) (N i : Nat) (ch : FileCacheChunk) (store' : ChunkStore)
    (hWF : storeKeysWF cfg store) (hC : storeContentWF env cfg store)
    (hN : N = (env.docs b).length)
    (h : getOrFetchChunk env cfg now store b N i = .ok (ch, store')) :
    ch.content = ((env.docs b).drop (i * cfg.chunkSize)).take cfg.chunkSize ∧
    storeContentWF env cfg store' := by
  rw [getOrFetchChunk] at h
  cases hget : storeGet store (b, i) with
  | some cached =>
    rw [hget] at h
    cases h
    have hmem := storeGet_mem store (b, i) ch hget
    have hfield := hWF ((b, i), ch) hmem
    have hcontent := hC ((b, i), ch) hmem
    refine ⟨?_, hC⟩
    rw [hcontent, hfield.1, hfield.2]
  | none =>
    rw [hget] at h
    by_cases hf : env.fetchOk b i = true
    · rw [if_pos hf] at h
      cases h
      constructor
      · exact fetchRange_take env b (i * cfg.chunkSize) cfg.chunkSize N hN
      · exact storeContentWF_put env cfg store (b, i) _ hC
          (by exact fetchRange_take env b (i * cfg.chunkSize) cfg.chunkSize N hN)
    · rw [if_neg hf] at h
      cases h

theorem getOrFetchChunk_error (env : RemoteEnv) (cfg : CacheConfig) (now : Nat)
    (store : ChunkStore) (b : String) (N i : Nat) (e : CacheError)
    (h : getOrFetchChunk env cfg now store b N i = .error e) :
    e = CacheError.remoteFetch ∧ storeGet store (b, i) = none ∧ env.fetchOk b i = false := by
  rw [getOrFetchChunk] at h
  cases hget : storeGet store (b, i) with
  | some cached => rw [hget] at h; cases h
  | none =>
    rw [hget] at h
    by_cases hf : env.fetchOk b i = true
    · rw [if_pos hf] at h; cases h
    · rw [if_neg hf] at h
      cases h
      exact ⟨rfl, rfl, by simpa using hf⟩

/-!  Behaviour of resolving a batch of chunk indices.  -/

theorem fetchList_cons_ok (env : RemoteEnv) (cfg : CacheConfig) (now : Nat) (b : String)
    (N : Nat) (i : Nat) (rest : List Nat) (store : ChunkStore) (ch : FileCacheChunk)
    (store1 : ChunkStore) (hres : getOrFetchChunk env cfg now store b N i = .ok (ch, store1)) :
    fetchList env cfg now b N (i :: rest) store =
      match fetchList env cfg now b N rest store1 with
      | (.ok chs, store2) => (.ok (ch :: chs), store2)
      | (.error e, store2) => (.error e, store2) := by
  rw [fetchList, hres]

theorem fetchList_cons_error (env : RemoteEnv) (cfg : CacheConfig) (now : Nat) (b : String)
    (N : Nat) (i : Nat) (rest : List Nat) (store : ChunkStore) (e : CacheError)
    (hres : getOrFetchChunk env cfg now store b N i = .error e) :
    fetchList env cfg now b N (i :: rest) store = (.error e, store) := by
  rw [fetchList, hres]

theorem fetchList_ok_content (env : RemoteEnv) (cfg : CacheConfig) (now : Nat) (b : String)
    (N : Nat) (hN : N = (env.docs b).length) :
    ∀ (idxs : List Nat) (store : ChunkStore),
    storeKeysWF cfg store → storeContentWF env cfg store →
    (∀ i ∈ idxs, env.fetchOk b i = true) →
    ∃ chunks store',
      fetchList env cfg now b N idxs store = (.ok chunks, store') ∧
      chunks.map (fun ch => ch.content)
        = idxs.map (fun i => ((env.docs b).drop (i * cfg.chunkSize)).take cfg.chunkSize) ∧
      storeKeysWF cfg store' ∧ storeContentWF env cfg store' ∧
      (∀ k ch0, storeGet store k = some ch0 → storeGet store' k = some ch0) ∧
      (∀ i ∈ idxs, (storeGet store' (b, i)).isSome = true) ∧
      (storeNodup store → storeNodup store') := by
  intro idxs
  induction idxs with
  | nil =>
    intro store hWF hC _
    exact ⟨[], store, rfl, rfl, hWF, hC, fun k ch0 hk => hk, by simp, fun hn => hn⟩
  | cons i rest ih =>
    intro store hWF hC hf
    cases hres : getOrFetchChunk env cfg now store b N i with
    | error e =>
      have := getOrFetchChunk_error env cfg now store b N i e hres
      have hfi := hf i (List.mem_cons_self i rest)
      rw [this.2.2] at hfi
      cases hfi
    | ok p =>
      obtain ⟨ch, store1⟩ := p
      have hbase := getOrFetchChunk_ok_store env cfg now store b N i ch store1 hres
      have hcont := getOrFetchChunk_ok_content env cfg now store b N i ch store1 hWF hC hN hres
      obtain ⟨chunks, store', hrec, hmap, hWF', hC', hmono, hpres, hnd⟩ :=
        ih store1 (hbase.2.2.2 hWF).2 hcont.2 (fun j hj => hf j (List.mem_cons_of_mem i hj))
      refine ⟨ch :: chunks, store', ?_, ?_, hWF', hC', ?_, ?_, ?_⟩
      · rw [fetchList_cons_ok env cfg now b N i rest store ch store1 hres, hrec]
      · simp only [List.map_cons, hmap, hcont.1, (hbase.2.2.2 hWF).1.2]
      · exact fun k ch0 hk => hmono k ch0 (hbase.2.1 k ch0 hk)
      · intro j hj
        rcases List.mem_cons.mp hj with hj | hj
        · subst hj
          rw [(hmono (b, j) ch hbase.1)]
          rfl
        · exact hpres j hj
      · exact fun hn => hnd (hbase.2.2.1 hn)

theorem fetchList_snd_wf (env : RemoteEnv) (cfg : CacheConfig) (now : Nat) (b : String)
    (N : Nat) :
    ∀ (idxs : List Nat) (store : ChunkStore),
    storeKeysWF cfg store → storeNodup store →
    storeKeysWF cfg (fetchList env cfg now b N idxs store).2 ∧
    storeNodup (fetchList env cfg now b N idxs store).2 := by
  intro idxs
  induction idxs with
  | nil => intro store hWF hnd; exact ⟨hWF, hnd⟩
  | cons i rest ih =>
    intro store hWF hnd
    cases hres : getOrFetchChunk env cfg now store b N i with
    | error e =>
      rw [fetchList_cons_error env cfg now b N i rest store e hres]
      exact ⟨hWF, hnd⟩
    | ok p =>
      obtain ⟨ch, store1⟩ := p
      have hbase := getOrFetchChunk_ok_store env cfg now store b N i ch store1 hres
      have h1 := ih store1 (hbase.2.2.2 hWF).2 (hbase.2.2.1 hnd)
      rw [fetchList_cons_ok env cfg now b N i rest store ch store1 hres]
      rcases hrec : fetchList env cfg now b N rest store1 with ⟨res, store2⟩
      rw [hrec] at h1
      cases res with
      | ok chs => exact h1
      | error e => exact h1

theorem fetchList_error_spec (env : RemoteEnv) (cfg : CacheConfig) (now : Nat) (b : String)
    (N : Nat) :
    ∀ (idxs : List Nat) (store : ChunkStore) (e : CacheError) (store' : ChunkStore),
    fetchList env cfg now b N idxs store = (.error e, store') →
    e = CacheError.remoteFetch ∧
    (∀ k ch0, storeGet store k = some ch0 → storeGet store' k = some ch0) ∧
    ∃ pre j post, idxs = pre ++ j :: post ∧ env.fetchOk b j = false ∧
      storeGet store' (b, j) = none ∧
      (∀ i ∈ pre, (storeGet store' (b, i)).isSome = true) := by
  intro idxs
  induction idxs with
  | nil => intro store e store' h; rw [fetchList] at h; cases h
  | cons i rest ih =>
    intro store e store' h
    cases hres : getOrFetchChunk env cfg now store b N i with
    | error e0 =>
      have hstep := getOrFetchChunk_error env cfg now store b N i e0 hres
      rw [fetchList_cons_error env cfg now b N i rest store e0 hres] at h
      cases h
      exact ⟨hstep.1, fun k ch0 hk => hk,
        [], i, rest, rfl, hstep.2.2, hstep.2.1, by simp⟩
    | ok p =>
      obtain ⟨ch, store1⟩ := p
      have hbase := getOrFetchChunk_ok_store env cfg now store b N i ch store1 hres
      rw [fetchList_cons_ok env cfg now b N i rest store ch store1 hres] at h
      rcases hrec : fetchList env cfg now b N rest store1 with ⟨res, store2⟩
      rw [hrec] at h
      cases res with
      | ok chs => cases h
      | error e1 =>
        cases h
        obtain ⟨he, hmono, pre, j, post, hsplit, hfj, hnone, hpre⟩ :=
          ih store1 e store' hrec
        refine ⟨he, fun k ch0 hk => hmono k ch0 (hbase.2.1 k ch0 hk),
          i :: pre, j, post, by rw [hsplit]; simp, hfj, hnone, ?_⟩
        intro i0 hi0
        rcases List.mem_cons.mp hi0 with hi0 | hi0
        · subst hi0
          rw [hmono (b, i0) ch hbase.1]
          rfl
        · exact hpre i0 hi0

/-!  Byte accounting and the eviction loop.  -/

theorem inactiveBytes_cons (e : ChunkKey × FileCacheChunk) (rest : ChunkStore) (cur : String) :
    inactiveBytes (e :: rest) cur =
      (if e.2.bookId = cur then 0 else e.2.content.length) + inactiveBytes rest cur := by
  by_cases h : e.2.bookId = cur <;>
    simp [inactiveBytes, storeChunks, bytesOf, List.filter_cons, h]

theorem inactiveBytes_le_totalBytes (s : ChunkStore) (cur : String) :
    inactiveBytes s cur ≤ totalBytes s := by
  induction s with
  | nil => simp [inactiveBytes, totalBytes, storeChunks, bytesOf]
  | cons e rest ih =>
    rw [inactiveBytes_cons]
    have : totalBytes (e :: rest) = e.2.content.length + totalBytes rest := by
      simp [totalBytes, storeChunks, bytesOf]
    rw [this]
    by_cases h : e.2.bookId = cur <;> simp [h] <;> omega

theorem storeDelete_of_none (s : ChunkStore) (k : ChunkKey) (h : storeGet s k = none) :
    storeDelete s k = s := by
  induction s with
  | nil => rfl
  | cons e rest ih =>
    by_cases h1 : e.1 = k
    · rw [storeGet, if_pos h1] at h; cases h
    · rw [storeGet, if_neg h1] at h
      rw [storeDelete, if_neg h1, ih h]

theorem storeGet_of_mem_nodup (s : ChunkStore) (k : ChunkKey) (ch : FileCacheChunk)
    (hnd : storeNodup s) (hmem : (k, ch) ∈ s) : storeGet s k = some ch := by
  induction s with
  | nil => simp at hmem
  | cons e rest ih =>
    simp only [storeNodup, List.map_cons, List.nodup_cons] at hnd
    rcases List.mem_cons.mp hmem with h1 | h1
    · rw [← h1, storeGet, if_pos rfl]
    · have hne : e.1 ≠ k := by
        intro hk
        exact hnd.1 (hk ▸ List.mem_map_of_mem (fun x => x.1) h1)
      rw [storeGet, if_neg hne]
      exact ih hnd.2 h1

theorem inactiveBytes_delete (s : ChunkStore) (k : ChunkKey) (ch : FileCacheChunk)
    (cur : String) (hnd : storeNodup s) (hget : storeGet s k = some ch)
    (hne : ch.bookId ≠ cur) :
    inactiveBytes (storeDelete s k) cur + ch.content.length = inactiveBytes s cur := by
  induction s with
  | nil => simp [storeGet] at hget
  | cons e rest ih =>
    simp only [storeNodup, List.map_cons, List.nodup_cons] at hnd
    by_cases h1 : e.1 = k
    · rw [storeGet, if_pos h1] at hget
      cases hget
      rw [storeDelete, if_pos h1]
      have hnone : storeGet rest k = none := by
        rw [storeGet_eq_none_iff]
        exact h1 ▸ hnd.1
      rw [storeDelete_of_none rest k hnone, inactiveBytes_cons, if_neg hne]
      omega
    · rw [storeGet, if_neg h1] at hget
      rw [storeDelete, if_neg h1, inactiveBytes_cons, inactiveBytes_cons]
      have := ih hnd.2 hget
      omega

theorem evictLoop_none (cfg : CacheConfig) :
    ∀ (L : List FileCacheChunk) (store : ChunkStore) (freed target : Nat) (k : ChunkKey),
    storeGet store k = none → storeGet (evictLoop cfg store L freed target) k = none := by
  intro L
  induction L with
  | nil => intro store freed target k h; exact h
  | cons ch rest ih =>
    intro store freed target k h
    rw [evictLoop]
    by_cases h1 : target ≤ freed
    · rw [if_pos h1]; exact h
    · rw [if_neg h1]
      apply ih
      rw [storeGet_delete]
      split
      · rfl
      · exact h

theorem evictLoop_subset (cfg : CacheConfig) :
    ∀ (L : List FileCacheChunk) (store : ChunkStore) (freed target : Nat) (k : ChunkKey)
      (ch : FileCacheChunk),
    storeGet (evictLoop cfg store L freed target) k = some ch → storeGet store k = some ch := by
  intro L
  induction L with
  | nil => intro store freed target k ch h; exact h
  | cons c0 rest ih =>
    intro store freed target k ch h
    rw [evictLoop] at h
    by_cases h1 : target ≤ freed
    · rw [if_pos h1] at h; exact h
    · rw [if_neg h1] at h
      have := ih _ _ _ _ _ h
      rw [storeGet_delete] at this
      by_cases h2 : k = keyOf cfg c0
      · rw [if_pos h2] at this; cases this
      · rw [if_neg h2] at this; exact this

theorem evictLoop_bound (cfg : CacheConfig) (cur : String) :
    ∀ (L : List FileCacheChunk) (store : ChunkStore) (freed target : Nat),
    storeNodup store →
    (∀ ch ∈ L, storeGet store (keyOf cfg ch) = some ch ∧ ch.bookId ≠ cur) →
    L.Pairwise (fun a b => keyOf cfg a ≠ keyOf cfg b) →
    inactiveBytes store cur = bytesOf L →
    bytesOf L + freed ≤ target + cfg.maxCacheSize →
    inactiveBytes (evictLoop cfg store L freed target) cur ≤ cfg.maxCacheSize := by
  intro L
  induction L with
  | nil =>
    intro store freed target _ _ _ hsum _
    rw [evictLoop, hsum]
    simp [bytesOf]
  | cons ch rest ih =>
    intro store freed target hnd hpres hdist hsum hle
    rw [evictLoop]
    by_cases h1 : target ≤ freed
    · rw [if_pos h1, hsum]
      omega
    · rw [if_neg h1]
      have hchunk := hpres ch (List.mem_cons_self ch rest)
      have hdel := inactiveBytes_delete store (keyOf cfg ch) ch cur hnd hchunk.1 hchunk.2
      have hbytes : bytesOf (ch :: rest) = ch.content.length + bytesOf rest := by
        simp [bytesOf]
      apply ih (storeDelete store (keyOf cfg ch)) (freed + ch.content.length) target
      · exact storeNodup_delete store (keyOf cfg ch) hnd
      · intro ch' hch'
        have hkne : keyOf cfg ch ≠ keyOf cfg ch' :=
          (List.pairwise_cons.mp hdist).1 ch' hch'
        constructor
        · rw [storeGet_delete, if_neg (fun hh => hkne hh.symm)]
          exact (hpres ch' (List.mem_cons_of_mem ch hch')).1
        · exact (hpres ch' (List.mem_cons_of_mem ch hch')).2
      · exact (List.pairwise_cons.mp hdist).2
      · omega
      · omega

theorem insertByCachedAt_perm (ch : FileCacheChunk) (L : List FileCacheChunk) :
    (insertByCachedAt ch L).Perm (ch :: L) := by
  induction L with
  | nil => exact List.Perm.refl _
  | cons c0 rest ih =>
    rw [insertByCachedAt]
    by_cases hle : ch.cachedAt ≤ c0.cachedAt
    · rw [if_pos hle]
    · rw [if_neg hle]
      exact (List.Perm.cons c0 ih).trans (List.Perm.swap ch c0 rest)

theorem sortByCachedAt_perm (L : List FileCacheChunk) : (sortByCachedAt L).Perm L := by
  induction L with
  | nil => exact List.Perm.refl _
  | cons c0 rest ih =>
    rw [sortByCachedAt]
    exact (insertByCachedAt_perm c0 (sortByCachedAt rest)).trans (List.Perm.cons c0 ih)

theorem insertByCachedAt_pairwise (ch : FileCacheChunk) (L : List FileCacheChunk)
    (h : L.Pairwise (fun a b => a.cachedAt ≤ b.cachedAt)) :
    (insertByCachedAt ch L).Pairwise (fun a b => a.cachedAt ≤ b.cachedAt) := by
  induction L with
  | nil => simp [insertByCachedAt]
  | cons c0 rest ih =>
    have h' := List.pairwise_cons.mp h
    rw [insertByCachedAt]
    by_cases hle : ch.cachedAt ≤ c0.cachedAt
    · rw [if_pos hle]
      refine List.pairwise_cons.mpr ⟨?_, h⟩
      intro b hb
      rcases List.mem_cons.mp hb with hb | hb
      · subst hb; omega
      · have := h'.1 b hb
        omega
    · rw [if_neg hle]
      refine List.pairwise_cons.mpr ⟨?_, ih h'.2⟩
      intro b hb
      have hmem := (insertByCachedAt_perm ch rest).mem_iff.mp hb
      rcases List.mem_cons.mp hmem with hb1 | hb1
      · subst hb1; omega
      · exact h'.1 b hb1

theorem sortByCachedAt_pairwise (L : List FileCacheChunk) :
    (sortByCachedAt L).Pairwise (fun a b => a.cachedAt ≤ b.cachedAt) := by
  induction L with
  | nil => exact List.Pairwise.nil
  | cons c0 rest ih => exact insertByCachedAt_pairwise c0 (sortByCachedAt rest) ih

theorem bytesOf_perm (L L' : List FileCacheChunk) (h : L.Perm L') : bytesOf L = bytesOf L' :=
  List.Perm.sum_eq (List.Perm.map _ h)

/-- Every chunk value of a well-formed store sits at exactly the key that
cleanup recomputes from its fields. -/
theorem keyOf_entry (cfg : CacheConfig) (store : ChunkStore) (hc : 0 < cfg.chunkSize)
    (hWF : storeKeysWF cfg store) (e : ChunkKey × FileCacheChunk) (he : e ∈ store) :
    keyOf cfg e.2 = e.1 := by
  have h := hWF e he
  rw [keyOf, h.1, h.2, Nat.mul_div_cancel _ hc]

theorem chunks_pairwise_keyOf (cfg : CacheConfig) (store : ChunkStore) (hc : 0 < cfg.chunkSize)
    (hWF : storeKeysWF cfg store) (hnd : storeNodup store) :
    (storeChunks store).Pairwise (fun a b => keyOf cfg a ≠ keyOf cfg b) := by
  rw [storeChunks, List.pairwise_map]
  have h1 : store.Pairwise (fun e e' => e.1 ≠ e'.1) := by
    rw [storeNodup, List.Nodup, List.pairwise_map] at hnd
    exact hnd
  refine List.Pairwise.imp_of_mem ?_ h1
  intro e e' he he' hne hk
  rw [keyOf_entry cfg store hc hWF e he, keyOf_entry cfg store hc hWF e' he'] at hk
  exact hne hk

/-- After cleanupOldChunks the cached bytes of books other than the current
one are within the budget: either the loop credited enough freed bytes, in
which case the total is within budget, or it consumed the whole candidate
list, leaving no other book's chunks at all. -/
theorem cleanupOldChunks_inactive (cfg : CacheConfig) (store : ChunkStore) (cur : String)
    (hc : 0 < cfg.chunkSize) (hWF : storeKeysWF cfg store) (hnd : storeNodup store) :
    inactiveBytes (cleanupOldChunks cfg store cur) cur ≤ cfg.maxCacheSize := by
  rw [cleanupOldChunks]
  by_cases hb : cfg.maxCacheSize < totalBytes store
  · rw [if_pos hb]
    have hperm :
        (sortByCachedAt
          ((storeChunks store).filter (fun ch => decide (ch.bookId ≠ cur)))).Perm
          ((storeChunks store).filter (fun ch => decide (ch.bookId ≠ cur))) :=
      sortByCachedAt_perm _
    have hsum : inactiveBytes store cur =
        bytesOf (sortByCachedAt
          ((storeChunks store).filter (fun ch => decide (ch.bookId ≠ cur)))) := by
      rw [inactiveBytes, bytesOf_perm _ _ hperm]
    apply evictLoop_bound cfg cur _ store 0 (totalBytes store - cfg.maxCacheSize) hnd
    · intro ch hch
      have hchF := hperm.mem_iff.mp hch
      have hmem := (List.mem_filter.mp hchF).1
      have hbook : ch.bookId ≠ cur := by
        have := (List.mem_filter.mp hchF).2
        simpa using this
      obtain ⟨e, he, hev⟩ := List.mem_map.mp hmem
      refine ⟨?_, hbook⟩
      have hkey := keyOf_entry cfg store hc hWF e he
      rw [← hev, hkey]
      exact storeGet_of_mem_nodup store e.1 e.2 hnd (by cases e; exact he) |>.trans (by rw [hev])
    · have hpw := chunks_pairwise_keyOf cfg store hc hWF hnd
      have hpwF := List.Pairwise.filter (fun ch => decide (ch.bookId ≠ cur)) hpw
      exact (hperm.pairwise_iff (fun h hh => h hh.symm)).mpr hpwF
    · exact hsum
    · have h1 : inactiveBytes store cur ≤ totalBytes store :=
        inactiveBytes_le_totalBytes store cur
      omega
  · rw [if_neg hb]
    have := inactiveBytes_le_totalBytes store cur
    omega

/-- In the eviction loop, deletions form a prefix of the candidate list: if a
strictly newer inactive chunk Y is no longer retrievable afterwards while X
survives, that is impossible - surviving X forces the loop to have stopped
before reaching X, hence before reaching Y. -/
theorem evictLoop_survival (cfg : CacheConfig) :
    ∀ (L : List FileCacheChunk) (store : ChunkStore) (freed target : Nat)
      (X Y : FileCacheChunk),
    X ∈ L → Y ∈ L →
    L.Pairwise (fun a b => a.cachedAt ≤ b.cachedAt) →
    L.Pairwise (fun a b => keyOf cfg a ≠ keyOf cfg b) →
    X.cachedAt < Y.cachedAt →
    storeGet store (keyOf cfg Y) = some Y →
    (storeGet (evictLoop cfg store L freed target) (keyOf cfg X)).isSome = true →
    storeGet (evictLoop cfg store L freed target) (keyOf cfg Y) = some Y := by
  intro L
  induction L with
  | nil => intro store freed target X Y hX _ _ _ _ hY _; cases hX
  | cons h0 rest ih =>
    intro store freed target X Y hX hY hsort hdist hlt hgetY hsurv
    rw [evictLoop] at hsurv ⊢
    by_cases h1 : target ≤ freed
    · rw [if_pos h1]; exact hgetY
    · rw [if_neg h1] at hsurv ⊢
      by_cases hkx : keyOf cfg h0 = keyOf cfg X
      · exfalso
        have hnone : storeGet (storeDelete store (keyOf cfg h0)) (keyOf cfg X) = none := by
          rw [storeGet_delete, if_pos hkx.symm]
        rw [evictLoop_none cfg rest _ _ _ _ hnone] at hsurv
        cases hsurv
      · rcases List.mem_cons.mp hY with hY0 | hYr
        · exfalso
          rcases List.mem_cons.mp hX with hX0 | hXr
          · rw [hX0, ← hY0] at hlt
            exact lt_irrefl _ hlt
          · have hle0 := (List.pairwise_cons.mp hsort).1 X hXr
            rw [← hY0] at hle0
            omega
        · rcases List.mem_cons.mp hX with hX0 | hXr
          · exact absurd (hX0 ▸ rfl) hkx
          · have hky : keyOf cfg h0 ≠ keyOf cfg Y :=
              (List.pairwise_cons.mp hdist).1 Y hYr
            have hgetY1 : storeGet (storeDelete store (keyOf cfg h0)) (keyOf cfg Y) = some Y := by
              rw [storeGet_delete, if_neg (fun hh => hky hh.symm)]
              exact hgetY
            exact ih _ _ _ X Y hXr hYr (List.pairwise_cons.mp hsort).2
              (List.pairwise_cons.mp hdist).2 hlt hgetY1 hsurv

/-!  Concatenating consecutive chunk slices reproduces a contiguous slice.  -/

theorem flatten_chunk_slices (doc : List Char) (c : Nat) :
    ∀ (n s : Nat),
    ((List.range' s n).map (fun i => (doc.drop (i * c)).take c)).flatten
      = (doc.drop (s * c)).take (n * c) := by
  intro n
  induction n with
  | zero => simp
  | succ m ih =>
    intro s
    rw [List.range'_succ, List.map_cons, List.flatten_cons, ih (s + 1),
      Nat.succ_mul s c, ← List.drop_drop, Nat.add_mul m 1 c, one_mul,
      Nat.add_comm (m * c) c, List.take_add]

/-- Claim C1: round-trip of readRange.  For a document whose true content has
size N, any offset and length with offset + length ≤ N and any chunkSize > 0,
getContentAtPosition returns exactly the substring [offset, offset + length)
of the true document content, whatever the preload and budget settings and
whatever well-formed cache contents it starts from. -/
theorem claim_C1 (env : RemoteEnv) (cfg : CacheConfig) (now : Nat) (store : ChunkStore)
    (bookId : String) (offset length : Nat)
    (hc : 0 < cfg.chunkSize)
    (hWF : storeKeysWF cfg store) (hC : storeContentWF env cfg store)
    (hf : ∀ i, env.fetchOk bookId i = true)
    (hlen : offset + length ≤ (env.docs bookId).length) :
    (getContentAtPosition env cfg now (some store) bookId (env.docs bookId).length
        offset length).1 =
      .ok (((env.docs bookId).drop offset).take length, offset) := by
  have hse : offset / cfg.chunkSize ≤ (offset + length) / cfg.chunkSize :=
    Nat.div_le_div_right (Nat.le_add_right offset length)
  obtain ⟨chunks, store', hfetch, hmap, _, _, _, _, _⟩ :=
    fetchList_ok_content env cfg now bookId (env.docs bookId).length rfl
      (List.range' (offset / cfg.chunkSize)
        ((offset + length) / cfg.chunkSize - offset / cfg.chunkSize + 1))
      store hWF hC (fun i _ => hf i)
  rw [getContentAtPosition, min_eq_left hlen, if_neg (not_lt.mpr hse), hfetch]
  dsimp only
  have hflat : (chunks.map (fun ch => ch.content)).flatten =
      ((env.docs bookId).drop (offset / cfg.chunkSize * cfg.chunkSize)).take
        (((offset + length) / cfg.chunkSize - offset / cfg.chunkSize + 1) * cfg.chunkSize) := by
    rw [hmap, flatten_chunk_slices]
  rw [hflat, List.drop_take, List.drop_drop, List.take_take]
  have hsc : offset / cfg.chunkSize * cfg.chunkSize ≤ offset := Nat.div_mul_le_self offset _
  have hoff : offset / cfg.chunkSize * cfg.chunkSize +
      (offset - offset / cfg.chunkSize * cfg.chunkSize) = offset := by omega
  rw [hoff]
  have hmul : ((offset + length) / cfg.chunkSize - offset / cfg.chunkSize + 1) * cfg.chunkSize
      = (offset + length) / cfg.chunkSize * cfg.chunkSize
        - offset / cfg.chunkSize * cfg.chunkSize + cfg.chunkSize := by
    rw [Nat.add_mul, Nat.sub_mul, one_mul]
  have hlt : offset + length < (offset + length) / cfg.chunkSize * cfg.chunkSize
      + cfg.chunkSize := by
    have h1 := Nat.div_add_mod (offset + length) cfg.chunkSize
    rw [Nat.mul_comm] at h1
    have h2 := Nat.mod_lt (offset + length) hc
    omega
  have hsc2 : offset / cfg.chunkSize * cfg.chunkSize ≤
      (offset + length) / cfg.chunkSize * cfg.chunkSize :=
    Nat.mul_le_mul_right _ hse
  have key : ∀ A B c0 o l : Nat, A ≤ o → A ≤ B → o + l < B + c0 →
      min l (B - A + c0 - (o - A)) = l := by
    intro A B c0 o l h1 h2 h3
    omega
  have hminl : min length
      (((offset + length) / cfg.chunkSize - offset / cfg.chunkSize + 1) * cfg.chunkSize
        - (offset - offset / cfg.chunkSize * cfg.chunkSize)) = length := by
    rw [hmul]
    exact key _ _ _ _ _ hsc hsc2 hlt
  rw [hminl]

/-- Witness for C1 at a concrete input: document "abcdef", chunkSize 2,
empty cache, offset 1, length 3. -/
theorem claim_C1_witness :
    (0 : Nat) < (2 : Nat) ∧
    (getContentAtPosition ⟨fun _ => ['a', 'b', 'c', 'd', 'e', 'f'], fun _ _ => true⟩
        ⟨2, 2, 10⟩ 0 (some []) "doc" 6 1 3).1 = .ok (['b', 'c', 'd'], 1) := by
  refine ⟨by decide, ?_⟩
  have h := claim_C1 ⟨fun _ => ['a', 'b', 'c', 'd', 'e', 'f'], fun _ _ => true⟩ ⟨2, 2, 10⟩ 0 []
    "doc" 1 3 (by decide) (by decide) (by decide) (fun i => rfl) (by decide)
  exact h

/-!  The preload window of loadChunksAround.  -/

theorem numChunks_pos (cfg : CacheConfig) (N : Nat) (hc : 0 < cfg.chunkSize) (hN : 0 < N) :
    1 ≤ numChunks cfg N := by
  rw [numChunks, Nat.one_le_div_iff hc]
  omega

theorem div_le_numChunks_sub_one (cfg : CacheConfig) (N position : Nat)
    (hc : 0 < cfg.chunkSize) (hpos : position < N) :
    position / cfg.chunkSize ≤ numChunks cfg N - 1 := by
  rw [numChunks]
  have h1 : N + cfg.chunkSize - 1 = (N - 1) + cfg.chunkSize := by omega
  rw [h1, Nat.add_div_right _ hc, Nat.add_sub_cancel]
  exact Nat.div_le_div_right (by omega)

theorem window_arith_start (t w nc : Nat) (ht : t ≤ nc - 1) :
    t - w ≤ min (nc - 1) (t + w) := by
  refine le_min (by omega) (by omega)

theorem window_arith_count (s E : Nat) (hle : s ≤ E) :
    ((E : Int) - (s : Int)).toNat + 1 = E - s + 1 := by
  omega

theorem window_arith_mem (s E i : Nat) (hle : s ≤ E) :
    (s ≤ i ∧ i < s + (E - s + 1)) ↔ (s ≤ i ∧ i ≤ E) := by
  omega

theorem window_start_le_end (cfg : CacheConfig) (N position : Nat) (hc : 0 < cfg.chunkSize)
    (hpos : position < N) :
    position / cfg.chunkSize - cfg.preloadChunks ≤
      min (numChunks cfg N - 1) (position / cfg.chunkSize + cfg.preloadChunks) :=
  window_arith_start _ _ _ (div_le_numChunks_sub_one cfg N position hc hpos)

/-- For an in-range position the window is the inclusive interval of chunk
indices from max(0, target - preload) to min(numChunks - 1, target + preload). -/
theorem chunkWindow_eq (cfg : CacheConfig) (N position : Nat) (hc : 0 < cfg.chunkSize)
    (hpos : position < N) :
    chunkWindow cfg N position =
      List.range' (position / cfg.chunkSize - cfg.preloadChunks)
        (min (numChunks cfg N - 1) (position / cfg.chunkSize + cfg.preloadChunks)
          - (position / cfg.chunkSize - cfg.preloadChunks) + 1) := by
  have hnc := numChunks_pos cfg N hc (by omega)
  have hle := window_start_le_end cfg N position hc hpos
  rw [chunkWindow]
  have h1 : ((numChunks cfg N : Int) - 1) = ((numChunks cfg N - 1 : Nat) : Int) := by
    rw [Nat.cast_sub hnc, Nat.cast_one]
  rw [h1, ← Nat.cast_min]
  rw [if_neg (not_lt.mpr (by exact_mod_cast hle))]
  congr 1
  exact window_arith_count _ _ hle

theorem mem_chunkWindow (cfg : CacheConfig) (N position : Nat) (hc : 0 < cfg.chunkSize)
    (hpos : position < N) (i : Nat) :
    i ∈ chunkWindow cfg N position ↔
      (position / cfg.chunkSize - cfg.preloadChunks ≤ i ∧
       i ≤ min (numChunks cfg N - 1) (position / cfg.chunkSize + cfg.preloadChunks)) := by
  have hle := window_start_le_end cfg N position hc hpos
  rw [chunkWindow_eq cfg N position hc hpos, List.mem_range'_1]
  exact window_arith_mem _ _ _ hle

/-!  Cleanup never touches the current book's chunks.  -/

theorem evictLoop_get_current (cfg : CacheConfig) :
    ∀ (L : List FileCacheChunk) (store : ChunkStore) (freed target : Nat) (b : String) (i : Nat),
    (∀ ch ∈ L, ch.bookId ≠ b) →
    storeGet (evictLoop cfg store L freed target) (b, i) = storeGet store (b, i) := by
  intro L
  induction L with
  | nil => intro store freed target b i _; rfl
  | cons ch rest ih =>
    intro store freed target b i hb
    rw [evictLoop]
    by_cases h1 : target ≤ freed
    · rw [if_pos h1]
    · rw [if_neg h1, ih _ _ _ b i (fun c hc => hb c (List.mem_cons_of_mem ch hc))]
      rw [storeGet_delete, if_neg]
      intro hk
      rw [keyOf] at hk
      exact hb ch (List.mem_cons_self ch rest) (congrArg Prod.fst hk).symm

theorem cleanup_get_current (cfg : CacheConfig) (store : ChunkStore) (cur : String) (i : Nat) :
    storeGet (cleanupOldChunks cfg store cur) (cur, i) = storeGet store (cur, i) := by
  rw [cleanupOldChunks]
  by_cases hb : cfg.maxCacheSize < totalBytes store
  · rw [if_pos hb]
    apply evictLoop_get_current
    intro ch hch
    have := (List.mem_filter.mp ((sortByCachedAt_perm _).mem_iff.mp hch)).2
    simpa using this
  · rw [if_neg hb]

/-- Claim C4 (amended): for a configuration with chunkSize > 0, a document of
true size N and a position strictly inside the document, loadChunksAround
resolves exactly the chunk indices in
[max(0, targetChunk - preloadWindow), min(ceil(N / chunkSize) - 1,
targetChunk + preloadWindow)], returns exactly the target chunk's content
(not the concatenation), leaves every window chunk cached, and on the spec's
concrete instance (chunkSize 524288, N 2000000, position 600000, preload 2)
the window is chunks 0 through 3. -/
theorem claim_C4 (env : RemoteEnv) (cfg : CacheConfig) (now : Nat) (store : ChunkStore)
    (bookId : String) (position : Nat)
    (hc : 0 < cfg.chunkSize)
    (hpos : position < (env.docs bookId).length)
    (hWF : storeKeysWF cfg store) (hC : storeContentWF env cfg store)
    (hf : ∀ i, env.fetchOk bookId i = true) :
    (∀ i : Nat, i ∈ chunkWindow cfg (env.docs bookId).length position ↔
      (position / cfg.chunkSize - cfg.preloadChunks ≤ i ∧
       i ≤ min (numChunks cfg (env.docs bookId).length - 1)
            (position / cfg.chunkSize + cfg.preloadChunks))) ∧
    (loadChunksAround env cfg now (some store) bookId (env.docs bookId).length position).1 =
      .ok (((env.docs bookId).drop (position / cfg.chunkSize * cfg.chunkSize)).take
        cfg.chunkSize) ∧
    (∃ store2,
      (loadChunksAround env cfg now (some store) bookId (env.docs bookId).length position).2
        = some store2 ∧
      ∀ i ∈ chunkWindow cfg (env.docs bookId).length position,
        (storeGet store2 (bookId, i)).isSome = true) ∧
    chunkWindow ⟨524288, 2, 10485760⟩ 2000000 600000 = [0, 1, 2, 3] := by
  have ht := div_le_numChunks_sub_one cfg (env.docs bookId).length position hc hpos
  have hle := window_start_le_end cfg (env.docs bookId).length position hc hpos
  obtain ⟨chunks, store', hfetch, hmap, _, _, _, hpres, _⟩ :=
    fetchList_ok_content env cfg now bookId (env.docs bookId).length rfl
      (chunkWindow cfg (env.docs bookId).length position) store hWF hC (fun i _ => hf i)
  have hwin := chunkWindow_eq cfg (env.docs bookId).length position hc hpos
  have hjlt : position / cfg.chunkSize - (position / cfg.chunkSize - cfg.preloadChunks) <
      min (numChunks cfg (env.docs bookId).length - 1)
        (position / cfg.chunkSize + cfg.preloadChunks)
      - (position / cfg.chunkSize - cfg.preloadChunks) + 1 := by
    have htE : position / cfg.chunkSize ≤
        min (numChunks cfg (env.docs bookId).length - 1)
          (position / cfg.chunkSize + cfg.preloadChunks) :=
      le_min ht (Nat.le_add_right _ _)
    omega
  have hidx : (chunkWindow cfg (env.docs bookId).length position)[position / cfg.chunkSize
      - (position / cfg.chunkSize - cfg.preloadChunks)]? = some (position / cfg.chunkSize) := by
    rw [hwin, List.getElem?_range' _ _ hjlt]
    congr 1
    have : position / cfg.chunkSize - cfg.preloadChunks ≤ position / cfg.chunkSize :=
      Nat.sub_le _ _
    omega
  have hchunk : ∃ ch, chunks[position / cfg.chunkSize
      - (position / cfg.chunkSize - cfg.preloadChunks)]? = some ch ∧
      ch.content = ((env.docs bookId).drop
        (position / cfg.chunkSize * cfg.chunkSize)).take cfg.chunkSize := by
    have h1 := congrArg
      (fun l => l[position / cfg.chunkSize - (position / cfg.chunkSize - cfg.preloadChunks)]?)
      hmap
    dsimp only at h1
    rw [List.getElem?_map, List.getElem?_map, hidx] at h1
    cases hget : chunks[position / cfg.chunkSize
        - (position / cfg.chunkSize - cfg.preloadChunks)]? with
    | none => rw [hget] at h1; cases h1
    | some ch =>
      rw [hget] at h1
      exact ⟨ch, rfl, by simpa using h1⟩
  obtain ⟨ch, hget, hcont⟩ := hchunk
  refine ⟨mem_chunkWindow cfg (env.docs bookId).length position hc hpos, ?_, ?_, by decide⟩
  · rw [loadChunksAround, hfetch]
    dsimp only
    rw [hget]
    dsimp only
    rw [hcont]
  · rw [loadChunksAround, hfetch]
    dsimp only
    rw [hget]
    dsimp only
    refine ⟨cleanupOldChunks cfg store' bookId, rfl, ?_⟩
    intro i hi
    rw [cleanup_get_current]
    exact hpres i hi

/-- Counterexample to C4 as stated: the claim quantifies over every
documentSize and position, but at documentSize 1, chunkSize 1, preload 0,
position 5 the target chunk index 5 exceeds the window's upper bound
min(ceil(1/1) - 1, 5) = 0, the window is empty, and loadChunksAround fails
reading .content of an undefined chunk instead of returning the target
chunk's content.  (A position only slightly past the end, with the target
index still inside the window - say documentSize 3, chunkSize 2,
position 3 - still succeeds; the failure needs the target index to lie past
the window's upper bound.) -/
theorem claim_C4_counterexample :
    (loadChunksAround ⟨fun _ => ['x'], fun _ _ => true⟩ ⟨1, 0, 10⟩ 0 (some []) "A" 1 5).1
      = .error .missingChunk := by
  rfl

/-- Witness for C4 at a concrete input: document "abcdef", chunkSize 2,
preload 1, position 3 (target chunk 1, content "cd"). -/
theorem claim_C4_witness :
    (0 : Nat) < (2 : Nat) ∧ (3 : Nat) < (6 : Nat) ∧
    (loadChunksAround ⟨fun _ => ['a', 'b', 'c', 'd', 'e', 'f'], fun _ _ => true⟩ ⟨2, 1, 100⟩ 0
        (some []) "doc" 6 3).1 = .ok (['c', 'd']) := by
  refine ⟨by decide, by decide, ?_⟩
  have h := (claim_C4 ⟨fun _ => ['a', 'b', 'c', 'd', 'e', 'f'], fun _ _ => true⟩ ⟨2, 1, 100⟩ 0 []
    "doc" 3 (by decide) (by decide) (by decide) (by decide) (fun i => rfl)).2.1
  exact h

/-- Claim C3 (amended): after a successful loadChunksAround on a well-formed,
duplicate-free store, the cached bytes of every book other than the
triggering call's book are within maxCacheSize - the total can exceed the
budget only by the active book's own cached footprint.  (getContentAtPosition
and getContentWithContext run no eviction, see the counterexample.) -/
theorem claim_C3 (env : RemoteEnv) (cfg : CacheConfig) (now : Nat) (store : ChunkStore)
    (bookId : String) (N position : Nat) (v : List Char) (store2 : ChunkStore)
    (hc : 0 < cfg.chunkSize) (hWF : storeKeysWF cfg store) (hnd : storeNodup store)
    (hres : loadChunksAround env cfg now (some store) bookId N position
      = (.ok v, some store2)) :
    inactiveBytes store2 bookId ≤ cfg.maxCacheSize := by
  rw [loadChunksAround] at hres
  rcases hfetch : fetchList env cfg now bookId N (chunkWindow cfg N position) store
    with ⟨res, store1⟩
  have hwf1 := fetchList_snd_wf env cfg now bookId N (chunkWindow cfg N position) store hWF hnd
  rw [hfetch] at hres hwf1
  cases res with
  | error e => cases hres
  | ok chunks =>
    dsimp only at hres
    cases hcur : chunks[position / cfg.chunkSize
        - (position / cfg.chunkSize - cfg.preloadChunks)]? with
    | none => rw [hcur] at hres; cases hres
    | some ch =>
      rw [hcur] at hres
      cases hres
      exact cleanupOldChunks_inactive cfg store1 bookId hc hwf1.1 hwf1.2

/-- The state reached by three loadAround calls on book A (chunkSize 1,
budget 1, preload 0, document "abc") followed by a readRange on book B:
readRange runs no eviction, so the cache ends with all three of A's bytes
plus B's byte. -/
def c3Env : RemoteEnv :=
  ⟨fun b => if b = "A" then ['a', 'b', 'c'] else ['x'], fun _ _ => true⟩

def c3Cfg : CacheConfig := ⟨1, 0, 1⟩

def c3Final : Option ChunkStore :=
  (getContentAtPosition c3Env c3Cfg 3
    ((loadChunksAround c3Env c3Cfg 2
      ((loadChunksAround c3Env c3Cfg 1
        ((loadChunksAround c3Env c3Cfg 0 (some []) "A" 3 0).2) "A" 3 1).2) "A" 3 2).2)
    "B" 1 0 1).2

/-- Counterexample to C3 as stated: after the readRange call completes, total
cached bytes (4) exceed maxCacheBytes (1) plus the active document B's
footprint (1), because getContentAtPosition never triggers eviction. -/
theorem claim_C3_counterexample :
    c3Final.isSome = true ∧
    c3Cfg.maxCacheSize + bookBytes (c3Final.getD []) "B" < totalBytes (c3Final.getD []) := by
  decide

/-- Witness for C3 at a concrete input: a single successful loadAround on an
empty cache. -/
theorem claim_C3_witness :
    (0 : Nat) < (1 : Nat) ∧
    inactiveBytes [(("A", 0), (⟨"A", 0, 0, ['a'], 0⟩ : FileCacheChunk))] "A" ≤ 2 := by
  refine ⟨by decide, ?_⟩
  exact claim_C3 ⟨fun _ => ['a', 'b'], fun _ _ => true⟩ ⟨1, 0, 2⟩ 0 [] "A" 2 0 ['a']
    [(("A", 0), ⟨"A", 0, 0, ['a'], 0⟩)]
    (by decide) (by decide) (by decide) (by rfl)

/-- Claim C7: a cache hit returns the stored chunk unchanged and leaves the
store unmodified (cachedAt is not refreshed on read), and consequently under
budget pressure an older-inserted inactive chunk X is evicted no later than a
newer-inserted inactive chunk Y: if cleanup evicts Y, it has already evicted
X, regardless of any reads in between. -/
theorem claim_C7 (env : RemoteEnv) (cfg : CacheConfig) (now : Nat) (store : ChunkStore)
    (cur : String) (N : Nat) (kx ky : ChunkKey) (X Y : FileCacheChunk)
    (hc : 0 < cfg.chunkSize) (hWF : storeKeysWF cfg store) (hnd : storeNodup store)
    (hgX : storeGet store kx = some X) (hgY : storeGet store ky = some Y)
    (hbX : X.bookId ≠ cur) (hbY : Y.bookId ≠ cur)
    (hlt : X.cachedAt < Y.cachedAt) :
    getOrFetchChunk env cfg now store kx.1 N kx.2 = .ok (X, store) ∧
    (storeGet (cleanupOldChunks cfg store cur) ky = none →
      storeGet (cleanupOldChunks cfg store cur) kx = none) := by
  have hgX' : storeGet store (kx.1, kx.2) = some X := hgX
  constructor
  · rw [getOrFetchChunk, hgX']
  · intro hYgone
    by_contra hX
    have hXsome : (storeGet (cleanupOldChunks cfg store cur) kx).isSome = true := by
      rw [Option.isSome_iff_ne_none]
      exact hX
    have hkX : keyOf cfg X = kx :=
      keyOf_entry cfg store hc hWF (kx, X) (storeGet_mem store kx X hgX)
    have hkY : keyOf cfg Y = ky :=
      keyOf_entry cfg store hc hWF (ky, Y) (storeGet_mem store ky Y hgY)
    rw [cleanupOldChunks] at hXsome hYgone
    by_cases hb : cfg.maxCacheSize < totalBytes store
    · rw [if_pos hb] at hXsome hYgone
      have hXF : X ∈ (storeChunks store).filter (fun ch => decide (ch.bookId ≠ cur)) :=
        List.mem_filter.mpr
          ⟨List.mem_map_of_mem (fun e => e.2) (storeGet_mem store kx X hgX), by simp [hbX]⟩
      have hYF : Y ∈ (storeChunks store).filter (fun ch => decide (ch.bookId ≠ cur)) :=
        List.mem_filter.mpr
          ⟨List.mem_map_of_mem (fun e => e.2) (storeGet_mem store ky Y hgY), by simp [hbY]⟩
      have hperm := sortByCachedAt_perm
        ((storeChunks store).filter (fun ch => decide (ch.bookId ≠ cur)))
      have hdist := (hperm.pairwise_iff (fun h hh => h hh.symm)).mpr
        (List.Pairwise.filter _ (chunks_pairwise_keyOf cfg store hc hWF hnd))
      have hsurv := evictLoop_survival cfg
        (sortByCachedAt ((storeChunks store).filter (fun ch => decide (ch.bookId ≠ cur))))
        store 0 (totalBytes store - cfg.maxCacheSize) X Y
        (hperm.mem_iff.mpr hXF) (hperm.mem_iff.mpr hYF)
        (sortByCachedAt_pairwise _) hdist hlt (hkY ▸ hgY) (hkX ▸ hXsome)
      rw [hkY] at hsurv
      rw [hsurv] at hYgone
      cases hYgone
    · rw [if_neg hb] at hYgone
      rw [hYgone] at hgY
      cases hgY

def c7X : FileCacheChunk := ⟨"A", 0, 0, ['a'], 1⟩

def c7Y : FileCacheChunk := ⟨"A", 1, 0, ['b'], 2⟩

def c7Store : ChunkStore :=
  [(("A", 0), c7X), (("A", 1), c7Y), (("B", 0), ⟨"B", 0, 0, ['z'], 0⟩)]

/-- Witness for C7 at a concrete input: two chunks of inactive book A cached
at times 1 and 2 and one chunk of active book B, budget 1: the hit on X
leaves the store untouched, and since cleanup evicts Y, it evicts X too. -/
theorem claim_C7_witness :
    getOrFetchChunk ⟨fun _ => ['a', 'b', 'z'], fun _ _ => true⟩ ⟨1, 0, 1⟩ 99 c7Store "A" 3 0
      = .ok (c7X, c7Store) ∧
    storeGet (cleanupOldChunks ⟨1, 0, 1⟩ c7Store "B") ("A", 0) = none := by
  have h := claim_C7 ⟨fun _ => ['a', 'b', 'z'], fun _ _ => true⟩ ⟨1, 0, 1⟩ 99 c7Store "B" 3
    ("A", 0) ("A", 1) c7X c7Y (by decide) (by decide) (by decide) (by decide) (by decide)
    (by decide) (by decide) (by decide)
  exact ⟨h.1, h.2 (by decide)⟩

/-- Claim C9: when loadChunksAround fails because a chunk's remote fetch
fails, nothing already cached is removed (the call never rolls back or
evicts), and every window chunk before the first failing index has been
persisted into the store and is still there: the failed call discards only
its return value, not the cache effects of chunks fetched before the
failure. -/
theorem claim_C9 (env : RemoteEnv) (cfg : CacheConfig) (now : Nat) (store : ChunkStore)
    (bookId : String) (N position : Nat) (store' : ChunkStore)
    (h : loadChunksAround env cfg now (some store) bookId N position
      = (.error .remoteFetch, some store')) :
    (∀ k ch0, storeGet store k = some ch0 → storeGet store' k = some ch0) ∧
    ∃ pre j post, chunkWindow cfg N position = pre ++ j :: post ∧
      env.fetchOk bookId j = false ∧ storeGet store (bookId, j) = none ∧
      (∀ i ∈ pre, (storeGet store' (bookId, i)).isSome = true) := by
  rw [loadChunksAround] at h
  rcases hfetch : fetchList env cfg now bookId N (chunkWindow cfg N position) store
    with ⟨res, store1⟩
  rw [hfetch] at h
  cases res with
  | ok chunks =>
    dsimp only at h
    cases hcur : chunks[position / cfg.chunkSize
        - (position / cfg.chunkSize - cfg.preloadChunks)]? with
    | none => rw [hcur] at h; cases h
    | some ch => rw [hcur] at h; cases h
  | error e =>
    cases h
    obtain ⟨he, hmono, pre, j, post, hsplit, hfj, hnone, hpre⟩ :=
      fetchList_error_spec env cfg now bookId N (chunkWindow cfg N position) store _ _ hfetch
    refine ⟨hmono, pre, j, post, hsplit, hfj, ?_, hpre⟩
    cases hsg : storeGet store (bookId, j) with
    | none => rfl
    | some ch0 =>
      rw [hmono (bookId, j) ch0 hsg] at hnone
      cases hnone

def c9Env : RemoteEnv := ⟨fun _ => ['a', 'b', 'c', 'd'], fun _ i => i != 1⟩

/-- Witness for C9 at a concrete input: window [0, 1, 2], the fetch of chunk
1 fails, chunk 0 has been fetched and stays cached. -/
theorem claim_C9_witness :
    (∀ k ch0, storeGet [] k = some ch0
      → storeGet [(("A", 0), (⟨"A", 0, 0, ['a'], 0⟩ : FileCacheChunk))] k = some ch0) ∧
    ∃ pre j post, chunkWindow ⟨1, 1, 10⟩ 4 1 = pre ++ j :: post ∧
      c9Env.fetchOk "A" j = false ∧ storeGet [] ("A", j) = none ∧
      (∀ i ∈ pre,
        (storeGet [(("A", 0), (⟨"A", 0, 0, ['a'], 0⟩ : FileCacheChunk))] ("A", i)).isSome
          = true) := by
  exact claim_C9 c9Env ⟨1, 1, 10⟩ 0 [] "A" 4 1
    [(("A", 0), ⟨"A", 0, 0, ['a'], 0⟩)] (by rfl)

/-- Claim C10: getCacheStats on an unopened store does not fail: it returns
zero chunks, zero bytes and no book ids, whereas loadChunksAround,
getContentAtPosition and getContentWithContext all fail with the
not-initialized error. -/
theorem claim_C10 :
    getCacheStats none = (0, 0, []) ∧
    (∀ (env : RemoteEnv) (cfg : CacheConfig) (now : Nat) (b : String) (N p : Nat),
      (loadChunksAround env cfg now none b N p).1 = .error .notInitialized) ∧
    (∀ (env : RemoteEnv) (cfg : CacheConfig) (now : Nat) (b : String) (N p l : Nat),
      (getContentAtPosition env cfg now none b N p l).1 = .error .notInitialized) ∧
    (∀ (env : RemoteEnv) (cfg : CacheConfig) (now : Nat) (b : String) (N p v : Nat),
      (getContentWithContext env cfg now none b N p v).1 = .error .notInitialized) :=
  ⟨rfl, fun _ _ _ _ _ _ => rfl, fun _ _ _ _ _ _ _ => rfl, fun _ _ _ _ _ _ _ => rfl⟩

/-!  The synchronizer claims.  -/

theorem progressGet_set_self (m : ProgressMap) (b : String) (p : ReadingProgress) :
    progressGet (progressSet m b p) b = some p := by
  simp [progressSet, progressGet]

/-- Claim C2 (amended): when the ledger has no entry for a document and the
remote store has one, syncBookProgress adopts the remote record through
updateReadingProgress, which writes the ledger AND enqueues the adopted
record as a pending update: after the operation the pending queue holds the
remote record for that documentId. -/
theorem claim_C2 (r : ProgressRemote) (s : SyncState) (bookId : String) (rp : ReadingProgress)
    (hlocal : getReadingProgress s bookId = none)
    (hread : loadReadingProgress r bookId = some rp)
    (hbk : rp.bookId = bookId) :
    syncBookProgress r s bookId = .ok (updateReadingProgress rp s) ∧
    getReadingProgress (updateReadingProgress rp s) bookId = some rp ∧
    progressGet (updateReadingProgress rp s).pendingUpdates bookId = some rp := by
  refine ⟨?_, ?_, ?_⟩
  · rw [syncBookProgress, hlocal, hread]
  · rw [getReadingProgress, updateReadingProgress]
    dsimp only
    rw [hbk, progressGet_set_self]
  · rw [updateReadingProgress]
    dsimp only
    rw [hbk, progressGet_set_self]

/-- Counterexample to C2 as stated: with no local entry and a remote record,
reconcile adopts the record but also leaves it in the pending-update queue
(the claim says the queue must hold no entry for the documentId). -/
theorem claim_C2_counterexample :
    syncBookProgress ⟨fun _ => some ⟨"b", 42, 10, 5, none⟩, fun _ => true, fun _ => true⟩
        ⟨[], [], false⟩ "b"
      = .ok ⟨[("b", ⟨"b", 42, 10, 5, none⟩)], [("b", ⟨"b", 42, 10, 5, none⟩)], false⟩ ∧
    progressGet [("b", (⟨"b", 42, 10, 5, none⟩ : ReadingProgress))] "b"
      = some ⟨"b", 42, 10, 5, none⟩ :=
  ⟨rfl, rfl⟩

/-- Witness for C2's amended claim at a concrete input. -/
theorem claim_C2_witness :
    syncBookProgress ⟨fun _ => some ⟨"b", 7, 1, 3, none⟩, fun _ => true, fun _ => true⟩
        ⟨[], [], false⟩ "b"
      = .ok (updateReadingProgress ⟨"b", 7, 1, 3, none⟩ ⟨[], [], false⟩) ∧
    progressGet (updateReadingProgress ⟨"b", 7, 1, 3, none⟩
      ⟨[], [], false⟩).pendingUpdates "b" = some ⟨"b", 7, 1, 3, none⟩ := by
  have h := claim_C2 ⟨fun _ => some ⟨"b", 7, 1, 3, none⟩, fun _ => true, fun _ => true⟩
    ⟨[], [], false⟩ "b" ⟨"b", 7, 1, 3, none⟩ rfl rfl rfl
  exact ⟨h.1, h.2.2⟩

/-- Claim C5 (amended): syncBookProgress propagates remote WRITE failures -
it errors exactly when it attempts a push (local present and the remote view
absent or older) and the write fails.  Remote READ transport failures are
never propagated: loadReadingProgress catches every error and returns null,
so reconcile treats an unreadable record as absent. -/
theorem claim_C5 (r : ProgressRemote) (s : SyncState) (bookId : String) :
    (∃ e, syncBookProgress r s bookId = .error e) ↔
      ∃ lp, getReadingProgress s bookId = some lp ∧ r.writeOk lp.bookId = false ∧
        (loadReadingProgress r bookId = none ∨
         ∃ rp, loadReadingProgress r bookId = some rp ∧
           rp.lastUpdated < lp.lastUpdated) := by
  rw [syncBookProgress]
  cases hl : getReadingProgress s bookId with
  | none =>
    cases hr : loadReadingProgress r bookId with
    | none => simp
    | some rp => simp
  | some lp =>
    cases hr : loadReadingProgress r bookId with
    | none =>
      by_cases hw : r.writeOk lp.bookId = true
      · simp [saveReadingProgress, hw]
      · simp [saveReadingProgress, hw]
        exact ⟨.remoteWrite, trivial⟩
    | some rp =>
      dsimp only
      by_cases ht1 : rp.lastUpdated < lp.lastUpdated
      · rw [if_pos ht1]
        by_cases hw : r.writeOk lp.bookId = true
        · simp [saveReadingProgress, hw]
        · simp [saveReadingProgress, hw]
          exact iff_of_true ⟨.remoteWrite, trivial⟩ ht1
      · rw [if_neg ht1]
        by_cases ht2 : lp.lastUpdated < rp.lastUpdated
        · rw [if_pos ht2]
          simp
          omega
        · rw [if_neg ht2]
          simp
          omega

/-- Counterexample to C5 as stated: the remote store has a (newer) record
but reading it fails at the transport level; reconcile succeeds anyway,
treats the record as absent, pushes the stale local value and dequeues it -
it does not fail with a fetch error. -/
theorem claim_C5_counterexample :
    syncBookProgress
        ⟨fun _ => some ⟨"b", 999, 50, 99, none⟩, fun _ => false, fun _ => true⟩
        ⟨[("b", ⟨"b", 1, 0, 1, none⟩)], [("b", ⟨"b", 1, 0, 1, none⟩)], false⟩ "b"
      = .ok ⟨[("b", ⟨"b", 1, 0, 1, none⟩)], [], false⟩ ∧
    (⟨fun _ => some ⟨"b", 999, 50, 99, none⟩, fun _ => false, fun _ => true⟩
      : ProgressRemote).readOk "b" = false :=
  ⟨rfl, rfl⟩

/-- Claim C6 (amended): fetchLatestProgress unconditionally fetches the
remote record; when one arrives it adopts it into the ledger exactly if the
local entry is absent or older, and it returns the remote value if one was
fetched and otherwise absent - it never falls back to the existing local
value. -/
theorem claim_C6 (r : ProgressRemote) (s : SyncState) (bookId : String) :
    (fetchLatestProgress r s bookId).1 = loadReadingProgress r bookId ∧
    (∀ rp, loadReadingProgress r bookId = some rp →
      ((getReadingProgress s bookId = none ∨
        (∃ lp, getReadingProgress s bookId = some lp ∧ lp.lastUpdated < rp.lastUpdated)) →
        (fetchLatestProgress r s bookId).2 = updateReadingProgress rp s) ∧
      (∀ lp, getReadingProgress s bookId = some lp → ¬lp.lastUpdated < rp.lastUpdated →
        (fetchLatestProgress r s bookId).2 = s)) ∧
    (loadReadingProgress r bookId = none → (fetchLatestProgress r s bookId).2 = s) := by
  refine ⟨?_, ?_, ?_⟩
  · cases hr : loadReadingProgress r bookId with
    | none => rw [fetchLatestProgress, hr]
    | some rp => rw [fetchLatestProgress, hr]
  · intro rp hrp
    constructor
    · intro hcase
      rw [fetchLatestProgress, hrp]
      rcases hcase with hnone | ⟨lp, hlp, hlt⟩
      · rw [hnone]
      · rw [hlp]
        dsimp only
        rw [if_pos hlt]
    · intro lp hlp hnlt
      rw [fetchLatestProgress, hrp, hlp]
      dsimp only
      rw [if_neg hnlt]
  · intro hr
    rw [fetchLatestProgress, hr]

/-- Counterexample to C6 as stated: the local ledger has an entry but the
remote record is absent; fetchLatestProgress returns none, not the existing
local value. -/
theorem claim_C6_counterexample :
    (fetchLatestProgress ⟨fun _ => none, fun _ => true, fun _ => true⟩
      ⟨[("b", ⟨"b", 100, 10, 5, none⟩)], [], false⟩ "b").1 = none ∧
    getReadingProgress ⟨[("b", ⟨"b", 100, 10, 5, none⟩)], [], false⟩ "b"
      = some ⟨"b", 100, 10, 5, none⟩ :=
  ⟨rfl, rfl⟩

/-- Witness for C6's amended claim at a concrete input: remote record newer
than the local entry, so it is returned and adopted. -/
theorem claim_C6_witness :
    (fetchLatestProgress ⟨fun _ => some ⟨"b", 200, 20, 10, none⟩, fun _ => true, fun _ => true⟩
      ⟨[("b", ⟨"b", 100, 10, 5, none⟩)], [], false⟩ "b").1 = some ⟨"b", 200, 20, 10, none⟩ ∧
    (fetchLatestProgress ⟨fun _ => some ⟨"b", 200, 20, 10, none⟩, fun _ => true, fun _ => true⟩
      ⟨[("b", ⟨"b", 100, 10, 5, none⟩)], [], false⟩ "b").2
      = updateReadingProgress ⟨"b", 200, 20, 10, none⟩
          ⟨[("b", ⟨"b", 100, 10, 5, none⟩)], [], false⟩ := by
  have h := claim_C6 ⟨fun _ => some ⟨"b", 200, 20, 10, none⟩, fun _ => true, fun _ => true⟩
    ⟨[("b", ⟨"b", 100, 10, 5, none⟩)], [], false⟩ "b"
  exact ⟨h.1, (h.2.1 ⟨"b", 200, 20, 10, none⟩ rfl).1
    (Or.inr ⟨⟨"b", 100, 10, 5, none⟩, rfl, by decide⟩)⟩

/-- Claim C8: calling syncAll twice in succession with nothing newly
recorded performs at most one remote write per pending document - a call
made while a flush is in progress does nothing, and otherwise the first call
dequeues every successfully written entry, so the second call only retries
entries whose write failed: for every document whose write succeeds, the two
calls together attempt at most one write. -/
theorem claim_C8 (r : ProgressRemote) (s : SyncState) :
    (s.isSyncing = true → syncAll r s = (s, [])) ∧
    (s.isSyncing = false → (s.pendingUpdates.map (fun e => e.1)).Nodup →
      ∀ b, r.writeOk b = true →
        List.count b ((syncAll r s).2 ++ (syncAll r (syncAll r s).1).2) ≤ 1) := by
  constructor
  · intro hsync
    rw [syncAll, if_pos hsync]
  · intro hsync hnd b hw
    rw [syncAll, if_neg (by simp [hsync])]
    by_cases hemp : s.pendingUpdates.length = 0
    · rw [if_pos hemp]
      rw [syncAll, if_neg (by simp [hsync]), if_pos hemp]
      simp
    · rw [if_neg hemp]
      dsimp only
      rw [syncAll]
      rw [if_neg (by simp)]
      by_cases hemp2 : (s.pendingUpdates.filter (fun e => !r.writeOk e.1)).length = 0
      · rw [if_pos hemp2]
        dsimp only
        rw [List.count_append]
        have h1 : List.count b (s.pendingUpdates.map (fun e => e.1)) ≤ 1 :=
          List.nodup_iff_count_le_one.mp hnd b
        simpa using h1
      · rw [if_neg hemp2]
        dsimp only
        rw [List.count_append]
        have h1 : List.count b (s.pendingUpdates.map (fun e => e.1)) ≤ 1 :=
          List.nodup_iff_count_le_one.mp hnd b
        have h2 : List.count b
            ((s.pendingUpdates.filter (fun e => !r.writeOk e.1)).map (fun e => e.1)) = 0 := by
          rw [List.count_eq_zero]
          intro hmem
          obtain ⟨e, he, heq⟩ := List.mem_map.mp hmem
          have hfe := (List.mem_filter.mp he).2
          rw [heq, hw] at hfe
          cases hfe
        omega

/-- Witness for C8 at a concrete input: one pending entry, all writes
succeed; across two back-to-back flushes the document is written once. -/
theorem claim_C8_witness :
    List.count "b" ((syncAll ⟨fun _ => none, fun _ => true, fun _ => true⟩
        ⟨[], [("b", ⟨"b", 1, 0, 1, none⟩)], false⟩).2 ++
      (syncAll ⟨fun _ => none, fun _ => true, fun _ => true⟩
        (syncAll ⟨fun _ => none, fun _ => true, fun _ => true⟩
          ⟨[], [("b", ⟨"b", 1, 0, 1, none⟩)], false⟩).1).2) ≤ 1 := by
  exact (claim_C8 ⟨fun _ => none, fun _ => true, fun _ => true⟩
    ⟨[], [("b", ⟨"b", 1, 0, 1, none⟩)], false⟩).2 rfl (by decide) "b" rfl

end SyncViewer
